import Mathlib

/-
Verification model of `llvm/tools/sycl-aspect-filter/sycl-aspect-filter.cpp`.

The tool reads a "file table" (a bracketed `|`-separated header line followed
by `|`-joined rows), and is meant to filter out rows whose property file
declares device requirements unsupported by the target.  Strings are modelled
as `List Char`; the filesystem as an association list from path to contents;
the whole run of `main` as a total function into an explicit outcome type
(`ok`/`err`/`diverge`), where `diverge` stands for a source loop that never
terminates or for undefined behaviour such as dereferencing an ended iterator.
-/

namespace AspectFilter

/-- Character strings, modelled as lists of characters. -/
abbrev Str := List Char

/-- Split a string at every occurrence of the separator character `c`.
This models both `llvm::line_iterator` line splitting (with `c = '\n'`) and
`StringRef::split` on `'|'`: `n` separators always produce `n + 1` fields. -/
def splitOnChar (c : Char) : Str → List Str
  | [] => [[]]
  | a :: s =>
    if a = c then [] :: splitOnChar c s
    else
      match splitOnChar c s with
      | [] => [[a]]
      | r :: rs => (a :: r) :: rs

/-- Join a list of fields with the separator character `c` between them
(inverse of `splitOnChar` on separator-free fields). -/
def joinSep (c : Char) : List Str → Str
  | [] => []
  | [x] => x
  | x :: y :: xs => x ++ c :: joinSep c (y :: xs)

/-- Emit each line followed by a terminating newline, as `raw_fd_ostream`
output of line-oriented writers does. -/
def writeLines (ls : List Str) : Str :=
  ls.foldr (fun l acc => l ++ '\n' :: acc) []

theorem splitOnChar_ne_nil (c : Char) (s : Str) : splitOnChar c s ≠ [] := by
  induction s with
  | nil => simp [splitOnChar]
  | cons a s ih =>
    simp only [splitOnChar]
    split
    · simp
    · cases h : splitOnChar c s with
      | nil => simp
      | cons r rs => simp [h]

theorem splitOnChar_of_not_mem (c : Char) (s : Str) (h : c ∉ s) :
    splitOnChar c s = [s] := by
  induction s with
  | nil => rfl
  | cons a s ih =>
    simp only [List.mem_cons, not_or] at h
    have hne : ¬ a = c := fun hh => h.1 hh.symm
    simp only [splitOnChar, if_neg hne, ih h.2]

theorem splitOnChar_append_cons (c : Char) (l s : Str) (h : c ∉ l) :
    splitOnChar c (l ++ c :: s) = l :: splitOnChar c s := by
  induction l with
  | nil => simp [splitOnChar]
  | cons a l ih =>
    simp only [List.mem_cons, not_or] at h
    have hne : ¬ a = c := fun hh => h.1 hh.symm
    simp only [List.cons_append, splitOnChar, if_neg hne, List.append_eq, ih h.2]

theorem splitOnChar_joinSep (c : Char) (xss : List Str) (hne : xss ≠ [])
    (h : ∀ x ∈ xss, c ∉ x) : splitOnChar c (joinSep c xss) = xss := by
  induction xss with
  | nil => exact absurd rfl hne
  | cons x xss ih =>
    cases xss with
    | nil =>
      simp only [joinSep]
      exact splitOnChar_of_not_mem c x (h x (by simp))
    | cons y yss =>
      simp only [joinSep]
      rw [splitOnChar_append_cons c x _ (h x (by simp))]
      rw [ih (by simp) (fun z hz => h z (List.mem_cons_of_mem x hz))]

theorem joinSep_splitOnChar (c : Char) (s : Str) :
    joinSep c (splitOnChar c s) = s := by
  induction s with
  | nil => rfl
  | cons a s ih =>
    simp only [splitOnChar]
    by_cases hac : a = c
    · subst hac
      rw [if_pos rfl]
      cases h : splitOnChar a s with
      | nil => exact absurd h (splitOnChar_ne_nil a s)
      | cons r rs =>
        simp only [joinSep]
        rw [← h, ih]
        rfl
    · rw [if_neg hac]
      cases h : splitOnChar c s with
      | nil => exact absurd h (splitOnChar_ne_nil c s)
      | cons r rs =>
        cases rs with
        | nil =>
          simp only [joinSep]
          have := ih
          rw [h] at this
          simp only [joinSep] at this
          rw [this]
        | cons r2 rs2 =>
          simp only [joinSep]
          have := ih
          rw [h] at this
          simp only [joinSep] at this
          simp [this]

theorem not_mem_of_mem_splitOnChar (c : Char) (s : Str) (x : Str)
    (hx : x ∈ splitOnChar c s) : c ∉ x := by
  induction s generalizing x with
  | nil =>
    simp only [splitOnChar, List.mem_singleton] at hx
    subst hx; simp
  | cons a s ih =>
    simp only [splitOnChar] at hx
    by_cases hac : a = c
    · rw [if_pos hac] at hx
      rcases List.mem_cons.mp hx with h | h
      · subst h; simp
      · exact ih x h
    · rw [if_neg hac] at hx
      cases h : splitOnChar c s with
      | nil => exact absurd h (splitOnChar_ne_nil c s)
      | cons r rs =>
        rw [h] at hx
        rcases List.mem_cons.mp hx with h2 | h2
        · subst h2
          intro hmem
          rcases List.mem_cons.mp hmem with h3 | h3
          · exact hac h3.symm
          · exact ih r (h ▸ List.mem_cons_self r rs) h3
        · exact ih x (h ▸ List.mem_cons_of_mem r h2)

theorem mem_of_mem_splitOnChar (c : Char) (s : Str) (x : Str)
    (hx : x ∈ splitOnChar c s) : ∀ a ∈ x, a ∈ s := by
  induction s generalizing x with
  | nil =>
    simp only [splitOnChar, List.mem_singleton] at hx
    subst hx; simp
  | cons b s ih =>
    intro a ha
    simp only [splitOnChar] at hx
    by_cases hbc : b = c
    · rw [if_pos hbc] at hx
      rcases List.mem_cons.mp hx with h | h
      · subst h; simp at ha
      · exact List.mem_cons_of_mem b (ih x h a ha)
    · rw [if_neg hbc] at hx
      cases h : splitOnChar c s with
      | nil => exact absurd h (splitOnChar_ne_nil c s)
      | cons r rs =>
        rw [h] at hx
        rcases List.mem_cons.mp hx with h2 | h2
        · subst h2
          rcases List.mem_cons.mp ha with h3 | h3
          · subst h3; simp
          · exact List.mem_cons_of_mem b
              (ih r (h ▸ List.mem_cons_self r rs) a h3)
        · exact List.mem_cons_of_mem b
            (ih x (h ▸ List.mem_cons_of_mem r h2) a ha)

theorem mem_joinSep (c : Char) (xss : List Str) (a : Char)
    (ha : a ∈ joinSep c xss) : a = c ∨ ∃ x ∈ xss, a ∈ x := by
  induction xss with
  | nil => simp [joinSep] at ha
  | cons x xss ih =>
    cases xss with
    | nil =>
      simp only [joinSep] at ha
      exact Or.inr ⟨x, by simp, ha⟩
    | cons y yss =>
      simp only [joinSep, List.mem_append, List.mem_cons] at ha
      rcases ha with h | h | h
      · exact Or.inr ⟨x, by simp, h⟩
      · exact Or.inl h
      · rcases ih h with h2 | ⟨z, hz, haz⟩
        · exact Or.inl h2
        · exact Or.inr ⟨z, List.mem_cons_of_mem x hz, haz⟩

theorem splitOnChar_writeLines (ls : List Str) (h : ∀ l ∈ ls, '\n' ∉ l) :
    splitOnChar '\n' (writeLines ls) = ls ++ [[]] := by
  induction ls with
  | nil => rfl
  | cons l ls ih =>
    simp only [writeLines, List.foldr_cons]
    rw [splitOnChar_append_cons '\n' l _ (h l (by simp))]
    rw [show List.foldr (fun l acc => l ++ '\n' :: acc) [] ls = writeLines ls from rfl]
    rw [ih (fun x hx => h x (List.mem_cons_of_mem l hx))]
    rfl

/-- Does `needle` occur as a contiguous substring of `hay`?  Models
`StringRef::find(needle) != npos` (source line 72). -/
def containsSub (needle : Str) : Str → Bool
  | [] => needle.isEmpty
  | a :: s => needle.isPrefixOf (a :: s) || containsSub needle s

/-- The non-blank lines of a buffer, in order: models `llvm::line_iterator`
with its default blank-line skipping. -/
def nonBlankLines (s : Str) : List Str :=
  (splitOnChar '\n' s).filter (fun l => !l.isEmpty)

/-- The file table: an ordered header of column names and ordered rows of
cells (`llvm::util::SimpleTable`). -/
structure SimpleTable where
  columns : List Str
  rows : List (List Str)
deriving DecidableEq

/-- The `Properties` column name looked up at source line 53. -/
def propertiesName : Str := "Properties".data

/-- The literal section header searched for at source lines 72 and 78. -/
def sectionHeaderLine : Str := "[SYCL/device requirements]".data

/-- A header line is bracketed: it starts with `[` and ends with `]`. -/
def validHeader (hd : Str) : Prop :=
  hd.head? = some '[' ∧ hd.getLast? = some ']'

/-- Column names are acceptable when unique and non-empty. -/
def validCols (cols : List Str) : Prop :=
  cols.Nodup ∧ ∀ c ∈ cols, c ≠ []

/-- Every row has exactly `n` cells. -/
def validRows (rows : List (List Str)) (n : Nat) : Prop :=
  ∀ r ∈ rows, r.length = n

instance (hd : Str) : Decidable (validHeader hd) := by
  unfold validHeader; infer_instance

instance (cols : List Str) : Decidable (validCols cols) := by
  unfold validCols; infer_instance

instance (rows : List (List Str)) (n : Nat) : Decidable (validRows rows n) := by
  unfold validRows; infer_instance

/-- Modelled from the spec: `util::SimpleTable::read` (declared in
`llvm/include/llvm/Support/SimpleTable.h`, not under `src/`).  The first
line must be `[col1|col2|...]`; brackets are stripped and the inside split
on `|` into unique, non-empty column names; each following non-blank line
is split on `|` into a row whose cell count must equal the column count. -/
def SimpleTable.read (data : Str) : Option SimpleTable :=
  match splitOnChar '\n' data with
  | [] => none
  | hd :: rest =>
    if validHeader hd then
      let cols := splitOnChar '|' ((hd.drop 1).dropLast)
      if validCols cols then
        let rows := (rest.filter (fun l => !l.isEmpty)).map (splitOnChar '|')
        if validRows rows cols.length then
          some (SimpleTable.mk cols rows)
        else none
      else none
    else none

/-- Modelled from the spec: `util::SimpleTable::write` (not under `src/`).
Emits the bracketed `|`-joined header line (when titles are requested)
followed by one `|`-joined line per row, each line newline-terminated. -/
def SimpleTable.write (t : SimpleTable) (includeTitles : Bool) : Str :=
  let headerLine := '[' :: (joinSep '|' t.columns ++ [']'])
  let rowLines := t.rows.map (joinSep '|')
  writeLines (if includeTitles then headerLine :: rowLines else rowLines)

/-- Modelled from the spec: `util::SimpleTable::create` (not under `src/`):
builds an empty table over the given column names, rejecting duplicate or
empty names. -/
def SimpleTable.create (cols : List Str) : Option SimpleTable :=
  if validCols cols then some (SimpleTable.mk cols []) else none

/-- Modelled from the spec: `SimpleTable::getColumnId` (not under `src/`):
index of the named column, `-1` when absent (compared at source line 53). -/
def SimpleTable.getColumnId (t : SimpleTable) (name : Str) : Int :=
  match t.columns.findIdx? (fun c => c == name) with
  | none => -1
  | some i => (i : Int)

/-- Modelled from the spec: `row.getCell(name)` (not under `src/`): the
row's cell under the named column (source line 65). -/
def SimpleTable.getCell (t : SimpleTable) (row : List Str) (name : Str) : Str :=
  match t.columns.findIdx? (fun c => c == name) with
  | none => []
  | some i => row.getD i []

/-- A table is well formed when the header is non-empty with unique,
non-empty, separator-free names and every row has matching arity with
separator-free, non-vanishing cells — exactly the tables the text format
can represent. -/
def SimpleTable.wellFormed (t : SimpleTable) : Prop :=
  t.columns ≠ [] ∧ t.columns.Nodup ∧
    (∀ c ∈ t.columns, c ≠ [] ∧ '|' ∉ c ∧ '\n' ∉ c) ∧
    (∀ r ∈ t.rows, r.length = t.columns.length ∧ joinSep '|' r ≠ [] ∧
      ∀ x ∈ r, '|' ∉ x ∧ '\n' ∉ x)

instance (t : SimpleTable) : Decidable t.wellFormed := by
  unfold SimpleTable.wellFormed
  infer_instance

/-- Modelled from the spec: `llvm::sys::path::filename` (not under `src/`):
the part of the path after the last `/` separator. -/
def sys.path.filename (p : Str) : Str :=
  (splitOnChar '/' p).getLastD []

/-- Index of the last `.` of a string (`StringRef::find_last_of('.')`). -/
def lastDotIdx (f : Str) : Option Nat :=
  match f.reverse.findIdx? (fun a => a == '.') with
  | none => none
  | some j => some (f.length - 1 - j)

/-- Modelled from the spec: `llvm::sys::path::stem` (not under `src/`):
the filename without its last extension (with the `.`/`..` special cases). -/
def sys.path.stem (p : Str) : Str :=
  let f := sys.path.filename p
  match lastDotIdx f with
  | none => f
  | some i => if f = ['.'] ∨ f = ['.', '.'] then f else f.take i

/-- Modelled from the spec: `llvm::sys::path::extension` (not under `src/`):
the filename's last extension, including its leading `.`. -/
def sys.path.extension (p : Str) : Str :=
  let f := sys.path.filename p
  match lastDotIdx f with
  | none => []
  | some i => if f = ['.'] ∨ f = ['.', '.'] then [] else f.drop i

/-- The four command-line options of the tool (source lines 27-39). -/
structure Config where
  inputFilename : Str
  output : Str
  target : Str
  deviceConfigFile : Str

/-- The filesystem: an association list from path to readable contents. -/
abbrev FS := List (Str × Str)

/-- Contents of the file at path `p`, `none` when missing or unreadable. -/
def FS.read (fs : FS) (p : Str) : Option Str :=
  (fs.find? (fun e => e.1 == p)).map (fun e => e.2)

/-- The output path computed at source lines 47-50: the given `-o` value,
or else the input's filename stem suffixed `_filtered` with the input's
extension appended. -/
def outputFileName (cfg : Config) : Str :=
  if cfg.output.isEmpty then
    sys.path.stem cfg.inputFilename ++ "_filtered".data ++
      sys.path.extension cfg.inputFilename
  else cfg.output

/-- Guard of the requirement-parsing loop at source lines 82-84: the line
starts with one of the recognized requirement keys. -/
def isReqKeyLine (l : Str) : Bool :=
  List.isPrefixOf "aspects".data l ||
    List.isPrefixOf "reqd_sub_group_size".data l ||
    List.isPrefixOf "fixed_target".data l

/-- Fuel-indexed run of the loop at source lines 82-104 over the non-blank
lines, the iterator standing at line `i`.  The loop body never advances the
iterator (the only `continue`s sit under `if (false)` and there is no
increment), so an iteration re-enters with the same `i`.  `none` means the
fuel ran out with the guard still true. -/
def reqLoopFuel : Nat → List Str → Nat → Option Unit
  | 0, _, _ => none
  | fuel + 1, lines, i =>
    if isReqKeyLine (lines.getD i []) then reqLoopFuel fuel lines i else some ()

/-- Denotation of the loop at source lines 82-104: since the body leaves the
iterator where it was, the loop terminates exactly when its guard fails on
entry; `none` denotes divergence (see `reqLoopFuel_agrees`). -/
def reqLoopRun (lines : List Str) (i : Nat) : Option Unit :=
  if isReqKeyLine (lines.getD i []) then none else some ()

/-- Outcome of handling one row (source lines 64-105): a fatal `error`
call, normal continuation, or divergence. -/
inductive RowRes where
  | fatal
  | ok
  | diverge
deriving DecidableEq

/-- One iteration of the row loop body (source lines 65-104): read the
row's property file (fatal if unreadable); if the buffer lacks the section
header substring, continue; otherwise scan to the first line equal to the
header (running the iterator off the end — modelled as divergence — when
the substring never forms a whole line) and run the requirement loop on
the following line. -/
def processRow (fs : FS) (propFile : Str) : RowRes :=
  match fs.read propFile with
  | none => .fatal
  | some contents =>
    if containsSub sectionHeaderLine contents then
      let lines := nonBlankLines contents
      match lines.findIdx? (fun l => l == sectionHeaderLine) with
      | none => .diverge
      | some idx =>
        match reqLoopRun lines (idx + 1) with
        | none => .diverge
        | some _ => .ok
    else .ok

/-- The row loop at source line 64, in input order. -/
def processRows (fs : FS) (t : SimpleTable) : List (List Str) → RowRes
  | [] => .ok
  | r :: rs =>
    match processRow fs (t.getCell r propertiesName) with
    | .fatal => .fatal
    | .diverge => .diverge
    | .ok => processRows fs t rs

/-- Overall outcome of an invocation: exit code `0` having written `data`
to the file at `path`; exit code `1` with nothing written; or divergence
(the process never terminates and never writes the output). -/
inductive RunResult where
  | ok (path : Str) (data : Str)
  | err
  | diverge
deriving DecidableEq

/-- `filterTable` (source lines 46-128).  Without a `Properties` column the
input table is written back verbatim.  Otherwise every row is processed
(only for its fatal or divergent effects), the input file is re-read, its
first line is stripped of the enclosing brackets and split into column
names, and a fresh table over those columns — to which no row is ever
added — is written out. -/
def filterTable (cfg : Config) (fs : FS) (t : SimpleTable) : RunResult :=
  let outName := outputFileName cfg
  if t.getColumnId propertiesName = -1 then
    .ok outName (t.write true)
  else
    match processRows fs t t.rows with
    | .fatal => .err
    | .diverge => .diverge
    | .ok =>
      match fs.read cfg.inputFilename with
      | none => .diverge
      | some data =>
        let firstLine := (nonBlankLines data).getD 0 []
        let colNames := splitOnChar '|' ((firstLine.drop 1).dropLast)
        match SimpleTable.create colNames with
        | none => .err
        | some newT => .ok outName (newT.write true)

/-- `main` (source lines 130-159): argument presence checks, existence
checks, table read, then `filterTable`.  No validity check of the target
against the device configuration is performed (the source only carries a
comment at line 140 announcing one). -/
def runMain (cfg : Config) (fs : FS) : RunResult :=
  if cfg.inputFilename.isEmpty then .err
  else
    match fs.read cfg.inputFilename with
    | none => .err
    | some inputData =>
      if cfg.target.isEmpty then .err
      else if cfg.deviceConfigFile.isEmpty then .err
      else
        match fs.read cfg.deviceConfigFile with
        | none => .err
        | some _ =>
          match SimpleTable.read inputData with
          | none => .err
          | some t => filterTable cfg fs t

theorem reqLoopFuel_stuck (lines : List Str) (i : Nat)
    (h : isReqKeyLine (lines.getD i []) = true) :
    ∀ fuel, reqLoopFuel fuel lines i = none := by
  intro fuel
  induction fuel with
  | zero => rfl
  | succ n ih => simp only [reqLoopFuel, h, if_true, ih]

/-- The fuel semantics of the source loop agrees with its denotation:
the loop fails to terminate for every fuel bound exactly when
`reqLoopRun` reports divergence. -/
theorem reqLoopFuel_agrees (lines : List Str) (i : Nat) :
    reqLoopRun lines i = none ↔ ∀ fuel, reqLoopFuel fuel lines i = none := by
  constructor
  · intro h fuel
    rw [reqLoopRun] at h
    by_cases hg : isReqKeyLine (lines.getD i []) = true
    · exact reqLoopFuel_stuck lines i hg fuel
    · rw [if_neg hg] at h
      exact Option.noConfusion h
  · intro h
    rw [reqLoopRun]
    by_cases hg : isReqKeyLine (lines.getD i []) = true
    · rw [if_pos hg]
    · have h1 := h 1
      simp only [reqLoopFuel, if_neg hg] at h1
      exact Option.noConfusion h1

theorem wellFormed_emptyRows (t : SimpleTable) (h : t.wellFormed) :
    (SimpleTable.mk t.columns []).wellFormed := by
  obtain ⟨h1, h2, h3, _⟩ := h
  refine ⟨h1, h2, h3, ?_⟩
  intro r hr
  exact absurd hr (List.not_mem_nil r)

/-- Every table produced by `SimpleTable.read` is well formed: the checks
performed by the reader, together with the structure of line and field
splitting, force all well-formedness conditions. -/
theorem read_wellFormed (d : Str) (t : SimpleTable)
    (h : SimpleTable.read d = some t) : t.wellFormed := by
  rcases hsplit : splitOnChar '\n' d with _ | ⟨hd, rest⟩
  · simp only [SimpleTable.read, hsplit] at h
    exact Option.noConfusion h
  · simp only [SimpleTable.read, hsplit] at h
    by_cases h1 : validHeader hd
    swap
    · rw [if_neg h1] at h
      exact Option.noConfusion h
    rw [if_pos h1] at h
    by_cases h2 : validCols (splitOnChar '|' ((hd.drop 1).dropLast))
    swap
    · rw [if_neg h2] at h
      exact Option.noConfusion h
    rw [if_pos h2] at h
    by_cases h3 : validRows ((rest.filter (fun l => !l.isEmpty)).map (splitOnChar '|'))
        (splitOnChar '|' ((hd.drop 1).dropLast)).length
    swap
    · rw [if_neg h3] at h
      exact Option.noConfusion h
    rw [if_pos h3] at h
    have hteq : SimpleTable.mk (splitOnChar '|' ((hd.drop 1).dropLast))
        ((rest.filter (fun l => !l.isEmpty)).map (splitOnChar '|')) = t :=
      Option.some_injective _ h
    subst hteq
    have hhd : hd ∈ splitOnChar '\n' d := by
      rw [hsplit]
      exact List.mem_cons_self hd rest
    have hhdNl : '\n' ∉ hd := not_mem_of_mem_splitOnChar '\n' d hd hhd
    obtain ⟨hnd, hne⟩ := h2
    refine ⟨splitOnChar_ne_nil _ _, hnd, ?_, ?_⟩
    · intro c hc
      refine ⟨hne c hc, not_mem_of_mem_splitOnChar _ _ _ hc, ?_⟩
      intro hnl
      have hinner : '\n' ∈ (hd.drop 1).dropLast :=
        mem_of_mem_splitOnChar _ _ _ hc '\n' hnl
      exact hhdNl (List.drop_subset 1 hd (List.dropLast_subset _ hinner))
    · intro r hr
      rcases List.mem_map.mp hr with ⟨line, hline, rfl⟩
      have hlineRest : line ∈ rest := (List.mem_filter.mp hline).1
      have hlineNe : line ≠ [] := by
        intro he
        have hp := (List.mem_filter.mp hline).2
        rw [he] at hp
        exact Bool.noConfusion hp
      have hlineMem : line ∈ splitOnChar '\n' d := by
        rw [hsplit]
        exact List.mem_cons_of_mem hd hlineRest
      have hlineNl : '\n' ∉ line := not_mem_of_mem_splitOnChar '\n' d line hlineMem
      refine ⟨h3 _ hr, ?_, ?_⟩
      · rw [joinSep_splitOnChar]
        exact hlineNe
      · intro x hx
        refine ⟨not_mem_of_mem_splitOnChar _ _ _ hx, ?_⟩
        intro hnl
        exact hlineNl (mem_of_mem_splitOnChar _ _ _ hx '\n' hnl)

/-- Round trip of the table codec: reading back the emitted bytes of a
well-formed table (titles included) recovers the table exactly. -/
theorem read_write_roundtrip (t : SimpleTable) (h : t.wellFormed) :
    SimpleTable.read (t.write true) = some t := by
  obtain ⟨hcne, hnd, hcols, hrows⟩ := h
  have hheadNl : '\n' ∉ '[' :: (joinSep '|' t.columns ++ [']']) := by
    intro hmem
    rcases List.mem_cons.mp hmem with h | h
    · exact absurd h (by decide)
    rcases List.mem_append.mp h with h | h
    · rcases mem_joinSep '|' t.columns '\n' h with h2 | ⟨x, hx, hx2⟩
      · exact absurd h2 (by decide)
      · exact (hcols x hx).2.2 hx2
    · rcases List.mem_cons.mp h with h2 | h2
      · exact absurd h2 (by decide)
      · exact absurd h2 (List.not_mem_nil _)
  have hlines : ∀ l ∈ ('[' :: (joinSep '|' t.columns ++ [']'])) :: t.rows.map (joinSep '|'),
      '\n' ∉ l := by
    intro l hl
    rcases List.mem_cons.mp hl with h | h
    · rw [h]
      exact hheadNl
    · intro hmem
      rcases List.mem_map.mp h with ⟨r, hr, rfl⟩
      rcases mem_joinSep '|' r '\n' hmem with h2 | ⟨x, hx, hx2⟩
      · exact absurd h2 (by decide)
      · exact ((hrows r hr).2.2 x hx).2 hx2
  have hsplit : splitOnChar '\n' (t.write true)
      = ('[' :: (joinSep '|' t.columns ++ [']'])) :: (t.rows.map (joinSep '|') ++ [[]]) := by
    show splitOnChar '\n'
        (writeLines (('[' :: (joinSep '|' t.columns ++ [']'])) :: t.rows.map (joinSep '|'))) = _
    rw [splitOnChar_writeLines _ hlines]
    rfl
  simp only [SimpleTable.read, hsplit]
  have hstrip : (('[' :: (joinSep '|' t.columns ++ [']'])).drop 1).dropLast
      = joinSep '|' t.columns := by
    rw [show ('[' :: (joinSep '|' t.columns ++ [']'])).drop 1
        = joinSep '|' t.columns ++ [']'] from rfl]
    exact List.dropLast_concat
  rw [hstrip, splitOnChar_joinSep '|' t.columns hcne (fun c hc => (hcols c hc).2.1)]
  have hhdr : validHeader ('[' :: (joinSep '|' t.columns ++ [']'])) := by
    constructor
    · rfl
    · rw [show '[' :: (joinSep '|' t.columns ++ [']'])
          = ('[' :: joinSep '|' t.columns) ++ [']'] from rfl]
      exact List.getLast?_concat _
  rw [if_pos hhdr]
  have hvc : validCols t.columns := ⟨hnd, fun c hc => (hcols c hc).1⟩
  rw [if_pos hvc]
  have hfilter : (t.rows.map (joinSep '|') ++ [[]]).filter (fun l => !l.isEmpty)
      = t.rows.map (joinSep '|') := by
    rw [List.filter_append]
    have h1 : (t.rows.map (joinSep '|')).filter (fun l => !l.isEmpty)
        = t.rows.map (joinSep '|') := by
      refine List.filter_eq_self.mpr ?_
      intro a ha
      rcases List.mem_map.mp ha with ⟨r, hr, rfl⟩
      rcases hj : joinSep '|' r with _ | ⟨x, l⟩
      · exact absurd hj (hrows r hr).2.1
      · rfl
    rw [h1]
    simp
  rw [hfilter]
  have hmm : (t.rows.map (joinSep '|')).map (splitOnChar '|') = t.rows := by
    rw [List.map_map]
    have hcong : ∀ r ∈ t.rows, (splitOnChar '|' ∘ joinSep '|') r = id r := by
      intro r hr
      have hrne : r ≠ [] := by
        intro hre
        have hlen := (hrows r hr).1
        rw [hre, List.length_nil] at hlen
        exact hcne (List.eq_nil_of_length_eq_zero hlen.symm)
      exact splitOnChar_joinSep '|' r hrne (fun x hx => ((hrows r hr).2.2 x hx).1)
    rw [List.map_congr_left hcong, List.map_id]
  rw [hmm]
  have hvr : validRows t.rows t.columns.length := fun r hr => (hrows r hr).1
  rw [if_pos hvr]

/-- When the table has a `Properties` column and every row's property file
is processed without a fatal error or divergence, `filterTable` writes a
fresh table carrying the input's column header and no rows at all. -/
theorem filterTable_withProps (cfg : Config) (fs : FS) (t : SimpleTable) (inData : Str)
    (hread : fs.read cfg.inputFilename = some inData)
    (ht : SimpleTable.read inData = some t)
    (hcol : t.getColumnId propertiesName ≠ -1)
    (hrows : processRows fs t t.rows = .ok) :
    filterTable cfg fs t
      = .ok (outputFileName cfg) ((SimpleTable.mk t.columns []).write true) := by
  rcases hsplit : splitOnChar '\n' inData with _ | ⟨hd, rest⟩
  · simp only [SimpleTable.read, hsplit] at ht
    exact Option.noConfusion ht
  simp only [SimpleTable.read, hsplit] at ht
  by_cases h1 : validHeader hd
  swap
  · rw [if_neg h1] at ht
    exact Option.noConfusion ht
  rw [if_pos h1] at ht
  by_cases h2 : validCols (splitOnChar '|' ((hd.drop 1).dropLast))
  swap
  · rw [if_neg h2] at ht
    exact Option.noConfusion ht
  rw [if_pos h2] at ht
  by_cases h3 : validRows ((rest.filter (fun l => !l.isEmpty)).map (splitOnChar '|'))
      (splitOnChar '|' ((hd.drop 1).dropLast)).length
  swap
  · rw [if_neg h3] at ht
    exact Option.noConfusion ht
  rw [if_pos h3] at ht
  have hteq : SimpleTable.mk (splitOnChar '|' ((hd.drop 1).dropLast))
      ((rest.filter (fun l => !l.isEmpty)).map (splitOnChar '|')) = t :=
    Option.some_injective _ ht
  have hdne : hd ≠ [] := by
    intro he
    have hh := h1.1
    rw [he] at hh
    exact Option.noConfusion hh
  have hnb : nonBlankLines inData = hd :: rest.filter (fun l => !l.isEmpty) := by
    rw [nonBlankLines, hsplit]
    refine List.filter_cons_of_pos ?_
    rcases hhd : hd with _ | ⟨a, l⟩
    · exact absurd hhd hdne
    · rfl
  simp only [filterTable, if_neg hcol, hrows, hread, hnb, List.getD_cons_zero]
  simp only [SimpleTable.create, if_pos h2]
  rw [← hteq]

theorem getLastD_mem {α : Type} (l : List α) (d : α) (h : l ≠ []) :
    l.getLastD d ∈ l := by
  induction l generalizing d with
  | nil => exact absurd rfl h
  | cons a l ih =>
    rw [List.getLastD_cons]
    cases l with
    | nil => simp [List.getLastD]
    | cons b l => exact List.mem_cons_of_mem a (ih a (by simp))

/-- Input fixture for C1: one row whose property file has the
device-requirements section with no requirement entries at all. -/
def fsC1 : FS :=
  [("t1".data, "[IR|Properties]\na.o|a.props\n".data),
   ("a.props".data, "[SYCL/device requirements]\n".data),
   ("dc".data, "gpu cpu\n".data)]

def cfgC1 : Config := ⟨"t1".data, [], "gpu".data, "dc".data⟩

/-- C1: the row's property file declares an empty device-requirements
section — no aspect, sub-group-size or fixed-target clause at all, so every
declared clause is vacuously supported — yet the run writes a header-only
table: the row does not appear in the output, refuting the kept-direction of
the claimed equivalence.  The code adds no row to the output table under any
circumstance (source lines 116-127). -/
theorem C1_supported_row_still_dropped :
    runMain cfgC1 fsC1 = .ok "t1_filtered".data "[IR|Properties]\n".data ∧
    SimpleTable.read "[IR|Properties]\n".data
      = some (SimpleTable.mk ["IR".data, "Properties".data] []) := by
  constructor
  · rfl
  · rfl

/-- Input fixture for C2: one row whose property file does not contain the
device-requirements section header at all. -/
def fsC2 : FS :=
  [("t2".data, "[IR|Properties]\nb.o|b.props\n".data),
   ("b.props".data, "no device requirements here\n".data),
   ("dc".data, "gpu cpu\n".data)]

def cfgC2 : Config := ⟨"t2".data, [], "gpu".data, "dc".data⟩

/-- C2: the row's property file lacks the `[SYCL/device requirements]`
section, so per the claim the row must be kept; the run instead writes a
table with the header and zero rows.  The `continue` at source line 74 only
carries a comment `copy the line to the output` — nothing is copied. -/
theorem C2_sectionless_row_not_kept :
    containsSub sectionHeaderLine "no device requirements here\n".data = false ∧
    runMain cfgC2 fsC2 = .ok "t2_filtered".data "[IR|Properties]\n".data ∧
    SimpleTable.read "[IR|Properties]\n".data
      = some (SimpleTable.mk ["IR".data, "Properties".data] []) := by
  refine ⟨rfl, rfl, rfl⟩

/-- C3: a table without a `Properties` column is written back to the output
verbatim — the emitted bytes are exactly the encoding of the input table
(hence same columns, same rows, same order), and decoding them recovers the
input table whenever it is well formed. -/
theorem C3_no_properties_column_passthrough (cfg : Config) (fs : FS)
    (t : SimpleTable) (h : t.getColumnId propertiesName = -1) :
    filterTable cfg fs t = .ok (outputFileName cfg) (t.write true) ∧
    (t.wellFormed → SimpleTable.read (t.write true) = some t) := by
  constructor
  · simp only [filterTable, if_pos h]
  · exact fun hwf => read_write_roundtrip t hwf

theorem C3_no_properties_column_passthrough_witness :
    (SimpleTable.mk ["A".data] [["x".data]]).getColumnId propertiesName = -1 ∧
    filterTable ⟨"in".data, [], "gpu".data, "dc".data⟩ []
        (SimpleTable.mk ["A".data] [["x".data]])
      = .ok "in_filtered".data "[A]\nx\n".data := by
  refine ⟨by decide, ?_⟩
  rw [(C3_no_properties_column_passthrough ⟨"in".data, [], "gpu".data, "dc".data⟩ []
    (SimpleTable.mk ["A".data] [["x".data]]) (by decide)).1]
  rfl

/-- C4: on every run that terminates successfully (exit 0, output written),
the written bytes decode to a table whose column list — names and order —
equals the input table's column list. -/
theorem C4_columns_preserved (cfg : Config) (fs : FS) (inData : Str)
    (t : SimpleTable) (p d : Str)
    (hin : fs.read cfg.inputFilename = some inData)
    (ht : SimpleTable.read inData = some t)
    (hrun : runMain cfg fs = .ok p d) :
    ∃ u, SimpleTable.read d = some u ∧ u.columns = t.columns := by
  by_cases h0 : cfg.inputFilename.isEmpty = true
  · simp only [runMain, if_pos h0] at hrun
    exact RunResult.noConfusion hrun
  simp only [runMain, if_neg h0, hin] at hrun
  by_cases h1 : cfg.target.isEmpty = true
  · rw [if_pos h1] at hrun
    exact RunResult.noConfusion hrun
  rw [if_neg h1] at hrun
  by_cases h2 : cfg.deviceConfigFile.isEmpty = true
  · rw [if_pos h2] at hrun
    exact RunResult.noConfusion hrun
  rw [if_neg h2] at hrun
  cases hdc : fs.read cfg.deviceConfigFile with
  | none =>
    simp only [hdc] at hrun
    exact RunResult.noConfusion hrun
  | some dcData =>
    simp only [hdc, ht] at hrun
    by_cases hcol : t.getColumnId propertiesName = -1
    · simp only [filterTable, if_pos hcol] at hrun
      injection hrun with hp hd
      subst hd
      exact ⟨t, read_write_roundtrip t (read_wellFormed inData t ht), rfl⟩
    · cases hpr : processRows fs t t.rows with
      | fatal =>
        simp only [filterTable, if_neg hcol, hpr] at hrun
        exact RunResult.noConfusion hrun
      | diverge =>
        simp only [filterTable, if_neg hcol, hpr] at hrun
        exact RunResult.noConfusion hrun
      | ok =>
        rw [filterTable_withProps cfg fs t inData hin ht hcol hpr] at hrun
        injection hrun with hp hd
        subst hd
        exact ⟨SimpleTable.mk t.columns [],
          read_write_roundtrip _ (wellFormed_emptyRows t (read_wellFormed inData t ht)),
          rfl⟩

def fsC4 : FS := [("w".data, "[A|B]\n1|2\n".data), ("dc".data, "x\n".data)]

def cfgC4 : Config := ⟨"w".data, [], "gpu".data, "dc".data⟩

theorem C4_columns_preserved_witness :
    FS.read fsC4 "w".data = some "[A|B]\n1|2\n".data ∧
    SimpleTable.read "[A|B]\n1|2\n".data
      = some (SimpleTable.mk ["A".data, "B".data] [["1".data, "2".data]]) ∧
    runMain cfgC4 fsC4 = .ok "w_filtered".data "[A|B]\n1|2\n".data ∧
    ∃ u, SimpleTable.read "[A|B]\n1|2\n".data = some u ∧
      u.columns = (SimpleTable.mk ["A".data, "B".data] [["1".data, "2".data]]).columns :=
  ⟨rfl, rfl, rfl, C4_columns_preserved cfgC4 fsC4 "[A|B]\n1|2\n".data
    (SimpleTable.mk ["A".data, "B".data] [["1".data, "2".data]])
    "w_filtered".data "[A|B]\n1|2\n".data rfl rfl rfl⟩

/-- Input fixture for C5: the target name `xyz` occurs nowhere in the
device configuration file's contents. -/
def fsC5 : FS :=
  [("in.txt".data, "[A]\nv\n".data),
   ("dc".data, "targets: gpu cpu\n".data)]

def cfgC5 : Config := ⟨"in.txt".data, [], "xyz".data, "dc".data⟩

/-- C5: with a `--target` value absent from the device capability
description the process still runs to completion with exit code 0 and
writes the output file: `main` never consults the capability file for the
target (source line 140 only carries a comment announcing that check). -/
theorem C5_unknown_target_still_writes :
    containsSub "xyz".data "targets: gpu cpu\n".data = false ∧
    runMain cfgC5 fsC5 = .ok "in_filtered.txt".data "[A]\nv\n".data := by
  refine ⟨rfl, rfl⟩

/-- Property-file fixture for C6: an `aspects` entry whose payload `abc` is
3 bytes long — truncated, not a multiple of the 4-byte integer width. -/
def propC6 : Str := "[SYCL/device requirements]\naspects|abc\n".data

def fsC6 : FS :=
  [("t6".data, "[IR|Properties]\nx.o|c.props\n".data),
   ("c.props".data, propC6),
   ("dc".data, "gpu\n".data)]

def cfgC6 : Config := ⟨"t6".data, [], "gpu".data, "dc".data⟩

/-- C6: the truncated `aspects` payload is not rejected with a decode
error: the code reinterprets the line's bytes with no bounds check (source
lines 87-89) and the requirement loop never advances its iterator, so the
run diverges — no error is ever reported for any fuel bound. -/
theorem C6_malformed_aspects_payload_not_reported :
    runMain cfgC6 fsC6 = .diverge ∧
    (∀ fuel, reqLoopFuel fuel (nonBlankLines propC6) 1 = none) ∧
    "abc".data.length % 4 ≠ 0 := by
  refine ⟨rfl, reqLoopFuel_stuck _ _ (by decide), by decide⟩

/-- C7: the table codec round-trips: decoding the header-included encoding
of any well-formed table yields that table back. -/
theorem C7_decode_encode_roundtrip (t : SimpleTable) (h : t.wellFormed) :
    SimpleTable.read (t.write true) = some t :=
  read_write_roundtrip t h

theorem C7_decode_encode_roundtrip_witness :
    (SimpleTable.mk ["IR".data, "Properties".data]
        [["a.o".data, "a.props".data], ["b.o".data, "b.props".data]]).wellFormed ∧
    SimpleTable.read
        ((SimpleTable.mk ["IR".data, "Properties".data]
          [["a.o".data, "a.props".data], ["b.o".data, "b.props".data]]).write true)
      = some (SimpleTable.mk ["IR".data, "Properties".data]
          [["a.o".data, "a.props".data], ["b.o".data, "b.props".data]]) :=
  ⟨by decide, C7_decode_encode_roundtrip _ (by decide)⟩

/-- Property-file fixture for C8: a requirement entry follows the section
header, so the parsing loop's guard holds on entry. -/
def propC8 : Str := "[SYCL/device requirements]\nreqd_sub_group_size|16\n".data

def fsC8 : FS :=
  [("t8".data, "[IR|Properties]\ny.o|d.props\n".data),
   ("d.props".data, propC8),
   ("dc".data, "gpu\n".data)]

def cfgC8 : Config := ⟨"t8".data, [], "gpu".data, "dc".data⟩

/-- C8: the device-requirements parsing loop does not terminate on this
input: its body never advances the line iterator (source lines 82-104
contain no increment), so once the guard holds it holds forever — the run
reaches neither exit code 0 nor a fatal error. -/
theorem C8_parsing_loop_diverges :
    runMain cfgC8 fsC8 = .diverge ∧
    (∀ fuel, reqLoopFuel fuel (nonBlankLines propC8) 1 = none) := by
  refine ⟨rfl, reqLoopFuel_stuck _ _ (by decide)⟩

/-- C9 counterexample: for input path `dir/in.txt` with no `-o`, the
computed default output path is `in_filtered.txt` — the directory part of
the input path is dropped, not preserved. -/
theorem C9_directory_not_preserved :
    outputFileName ⟨"dir/in.txt".data, [], "gpu".data, "dc".data⟩
      = "in_filtered.txt".data ∧
    outputFileName ⟨"dir/in.txt".data, [], "gpu".data, "dc".data⟩
      ≠ "dir/in_filtered.txt".data := by
  refine ⟨rfl, by decide⟩

/-- C9 amended: without `-o` the output path is the input's filename stem
suffixed `_filtered` followed by the input's extension, and it carries no
directory component at all: the default output name never contains a path
separator, whatever directory the input lives in. -/
theorem C9_default_output_name (cfg : Config) (h : cfg.output = []) :
    outputFileName cfg
      = sys.path.stem cfg.inputFilename ++ "_filtered".data ++
          sys.path.extension cfg.inputFilename ∧
    '/' ∉ outputFileName cfg := by
  have heq : outputFileName cfg
      = sys.path.stem cfg.inputFilename ++ "_filtered".data ++
          sys.path.extension cfg.inputFilename := by
    simp [outputFileName, h]
  refine ⟨heq, ?_⟩
  rw [heq]
  have hfn : '/' ∉ sys.path.filename cfg.inputFilename := by
    rw [sys.path.filename]
    exact fun hmem => not_mem_of_mem_splitOnChar '/' cfg.inputFilename _
      (getLastD_mem _ _ (splitOnChar_ne_nil '/' cfg.inputFilename)) hmem
  have hstem : '/' ∉ sys.path.stem cfg.inputFilename := by
    rcases hli : lastDotIdx (sys.path.filename cfg.inputFilename) with _ | i
    · simp only [sys.path.stem, hli]
      exact hfn
    · simp only [sys.path.stem, hli]
      by_cases hsp : sys.path.filename cfg.inputFilename = ['.'] ∨
          sys.path.filename cfg.inputFilename = ['.', '.']
      · rw [if_pos hsp]
        exact hfn
      · rw [if_neg hsp]
        exact fun hmem => hfn (List.take_subset i _ hmem)
  have hext : '/' ∉ sys.path.extension cfg.inputFilename := by
    rcases hli : lastDotIdx (sys.path.filename cfg.inputFilename) with _ | i
    · simp only [sys.path.extension, hli]
      exact List.not_mem_nil '/'
    · simp only [sys.path.extension, hli]
      by_cases hsp : sys.path.filename cfg.inputFilename = ['.'] ∨
          sys.path.filename cfg.inputFilename = ['.', '.']
      · rw [if_pos hsp]
        exact List.not_mem_nil '/'
      · rw [if_neg hsp]
        exact fun hmem => hfn (List.drop_subset i _ hmem)
  intro hmem
  rcases List.mem_append.mp hmem with h1 | h1
  · rcases List.mem_append.mp h1 with h2 | h2
    · exact hstem h2
    · exact absurd h2 (by decide)
  · exact hext h1

theorem C9_default_output_name_witness :
    (Config.mk "dir/in.txt".data [] "gpu".data "dc".data).output = [] ∧
    (outputFileName (Config.mk "dir/in.txt".data [] "gpu".data "dc".data)
        = sys.path.stem "dir/in.txt".data ++ "_filtered".data ++
            sys.path.extension "dir/in.txt".data ∧
      '/' ∉ outputFileName (Config.mk "dir/in.txt".data [] "gpu".data "dc".data)) :=
  ⟨rfl, C9_default_output_name (Config.mk "dir/in.txt".data [] "gpu".data "dc".data) rfl⟩

/-- Property-file fixture for the C10 counterexample: a `fixed_target`
entry follows the section header. -/
def propC10 : Str := "[SYCL/device requirements]\nfixed_target|gpu\n".data

def fsC10 : FS :=
  [("t10".data, "[IR|Properties]\nz.o|e.props\n".data),
   ("e.props".data, propC10),
   ("dc".data, "gpu\n".data)]

def cfgC10 : Config := ⟨"t10".data, [], "gpu".data, "dc".data⟩

/-- C10 counterexample: the table has a `Properties` column and every
`Properties` cell names a readable file, yet no table is written to the
output at all — the run diverges in the requirement-parsing loop, so the
claim's `whatever the property files declare` fails. -/
theorem C10_no_output_on_key_line :
    runMain cfgC10 fsC10 = .diverge := by
  rfl

/-- C10 amended: for every input table with a `Properties` column whose
rows are all processed without a fatal error and without divergence (each
property file readable, and any device-requirements header occurring as a
whole line not followed by a recognized requirement-key line), the output
is a table carrying exactly the input's column header and zero rows. -/
theorem C10_header_only_output (cfg : Config) (fs : FS) (t : SimpleTable)
    (inData : Str)
    (hread : fs.read cfg.inputFilename = some inData)
    (ht : SimpleTable.read inData = some t)
    (hcol : t.getColumnId propertiesName ≠ -1)
    (hrows : processRows fs t t.rows = .ok) :
    filterTable cfg fs t
      = .ok (outputFileName cfg) ((SimpleTable.mk t.columns []).write true) :=
  filterTable_withProps cfg fs t inData hread ht hcol hrows

def fsC10w : FS :=
  [("t11".data, "[IR|Properties]\nk.o|k.props\n".data),
   ("k.props".data, "some unrelated text\n".data),
   ("dc".data, "gpu\n".data)]

def cfgC10w : Config := ⟨"t11".data, [], "gpu".data, "dc".data⟩

theorem C10_header_only_output_witness :
    FS.read fsC10w "t11".data = some "[IR|Properties]\nk.o|k.props\n".data ∧
    SimpleTable.read "[IR|Properties]\nk.o|k.props\n".data
      = some (SimpleTable.mk ["IR".data, "Properties".data]
          [["k.o".data, "k.props".data]]) ∧
    (SimpleTable.mk ["IR".data, "Properties".data]
        [["k.o".data, "k.props".data]]).getColumnId propertiesName ≠ -1 ∧
    filterTable cfgC10w fsC10w
        (SimpleTable.mk ["IR".data, "Properties".data] [["k.o".data, "k.props".data]])
      = .ok (outputFileName cfgC10w)
          ((SimpleTable.mk ["IR".data, "Properties".data] []).write true) :=
  ⟨rfl, rfl, by decide,
    C10_header_only_output cfgC10w fsC10w
      (SimpleTable.mk ["IR".data, "Properties".data] [["k.o".data, "k.props".data]])
      "[IR|Properties]\nk.o|k.props\n".data rfl rfl (by decide) rfl⟩

end AspectFilter
